import Mathlib

/-!
Verification of the facial-mask-rendering and caching core of the
qoves_tech_test repository, as a shallow embedding in Lean 4.

Conventions used throughout:
* 2D landmark coordinates are modelled as exact rationals (the Python code
  uses floats; every claim under study is about order, structure or exact
  pass-through of coordinates, none depends on float rounding).
* Python `datetime` values are modelled as natural-number timestamps; only
  their ordering is ever used by the code.
* Python functions that can raise (IndexError on out-of-range list access)
  are modelled as `Option`-returning functions: `none` means the Python
  function raises.
* Python dicts used as ordered mappings (region maps, color maps) are
  modelled as association lists in insertion order, which is how Python
  iterates them.
-/

set_option maxRecDepth 4000

namespace QovesSpec

attribute [local semireducible] Rat.add Rat.mul Rat.sub Rat.inv Rat.ofScientific

/-- A 2D landmark point, mirroring the `{'x': float, 'y': float}` dicts of
the source. -/
structure Pt where
  x : ℚ
  y : ℚ
deriving DecidableEq, Repr

instance : Inhabited Pt := ⟨⟨0, 0⟩⟩

/-- Round-half-to-even of a rational to an integer: the rounding used by
Python's `round` builtin and by `format(..., '.2f')` (on the exact value;
the Python source applies it to the nearest binary double, which agrees
with the exact value away from representation-boundary artefacts). -/
def roundHalfEven (q : ℚ) : ℤ :=
  if q - Rat.floor q < 1/2 then Rat.floor q
  else if 1/2 < q - Rat.floor q then Rat.floor q + 1
  else if 2 ∣ Rat.floor q then Rat.floor q else Rat.floor q + 1

/-- Python `round(q, 2)` expressed in integer hundredths (cents). -/
def roundCents (q : ℚ) : ℤ := roundHalfEven (q * 100)

/-- Two-digit zero padding of a value below 100, for the fraction part of
fixed 2-decimal formatting. -/
def pad2 (n : Nat) : String :=
  if n < 10 then "0" ++ toString n else toString n

/-- Python `f"{q:.2f}"`: fixed 2-decimal serialization of a coordinate. -/
def fmt2 (q : ℚ) : String :=
  let c : ℤ := roundHalfEven (q * 100)
  let sign := if q < 0 then "-" else ""
  sign ++ toString (c.natAbs / 100) ++ "." ++ pad2 (c.natAbs % 100)

/-- Serialization `f"{x:.2f},{y:.2f}"` of one point inside a path command. -/
def fmtPt (p : Pt) : String := fmt2 p.x ++ "," ++ fmt2 p.y

/-- Python `" ".join(path_parts)`. -/
def joinParts : List String → String
  | [] => ""
  | [p] => p
  | p :: rest => p ++ " " ++ joinParts rest

/-- The final character of a string, used to state "the path string ends in
a close-path Z instruction". -/
def lastChar (s : String) : Option Char := s.data.getLast?

/-- List indexing with the Python semantics used on indices that are known
to be in range (`pts[i]`); out-of-range accesses never occur where this is
used because the surrounding code fixes the index ranges. -/
def nth (l : List Pt) (i : Nat) : Pt := l.getD i default

/-- One element of the generated SVG document, keeping the structure of the
strings appended to `svg_parts` in the source: the path d-attribute, fill
color, fill-opacity and stroke width of a `<path .../>` element, and the
formatted centroid coordinates and numeric label of a `<text ...>` element. -/
inductive SvgPart where
  | image (data : String)
  | path (d : String) (color : String) (fillOp : ℚ) (strokeW : Nat)
  | text (x y : String) (label : Nat)
deriving DecidableEq, Repr

namespace FinalCode

/-- Embedding of `final_code.landmarks_to_svg_path` (the PathBuilder).
0 or 1 points give the empty string; exactly 2 points give a single
straight segment with no close command; `not smooth or exactly 3 points`
gives a straight polyline, closed with Z when requested; otherwise
Catmull-Rom-derived cubic segments with the 1/6 control-point formula,
wrapping through the duplicated first point when closed. -/
def landmarks_to_svg_path (lms : List Pt) (closed : Bool) (smooth : Bool) : String :=
  if lms.length < 2 then ""
  else if lms.length = 2 then
    "M " ++ fmtPt (nth lms 0) ++ " L " ++ fmtPt (nth lms 1)
  else if smooth = false ∨ lms.length = 3 then
    joinParts (("M " ++ fmtPt (nth lms 0)) ::
      ((lms.drop 1).map (fun p => "L " ++ fmtPt p) ++ if closed then ["Z"] else []))
  else
    let pts := if closed then lms ++ [nth lms 0] else lms
    let n := pts.length
    let seg := fun (i : Nat) =>
      let p0 := if i = 0 then (if closed then nth pts (n - 2) else nth pts 0)
                else nth pts (i - 1)
      let p1 := nth pts i
      let p2 := nth pts (i + 1)
      let p3 := if i + 2 < n then nth pts (i + 2)
                else (if closed then nth pts 1 else nth pts (i + 1))
      let cp1 : Pt := ⟨p1.x + (p2.x - p0.x) / 6, p1.y + (p2.y - p0.y) / 6⟩
      let cp2 : Pt := ⟨p2.x - (p3.x - p1.x) / 6, p2.y - (p3.y - p1.y) / 6⟩
      "C " ++ fmtPt cp1 ++ " " ++ fmtPt cp2 ++ " " ++ fmtPt p2
    joinParts (("M " ++ fmtPt (nth pts 0)) ::
      ((List.range (n - 1)).map seg ++ if closed then ["Z"] else []))

end FinalCode

namespace SvgGeneration

/-- Embedding of `app/utils/svg_generation.landmarks_to_svg_path`: the
app-side path builder has no smoothing option at all; it always emits a
straight polyline, closing with Z when requested (also for 2 points). -/
def landmarks_to_svg_path (lms : List Pt) (closed : Bool) : String :=
  if lms.length < 2 then ""
  else
    joinParts (("M " ++ fmtPt (nth lms 0)) ::
      ((lms.drop 1).map (fun p => "L " ++ fmtPt p) ++ if closed then ["Z"] else []))

end SvgGeneration

namespace FinalCode

/-- The fixed top-arc landmark indices of
`final_code.extrapolate_forehead_to_hairline`. -/
def topForeheadIndices : List Nat := [162, 21, 54, 103, 67, 109, 10, 338, 297, 332, 284, 251]

/-- The fixed eyebrow reference indices of the same function. -/
def eyebrowIndices : List Nat := [70, 63, 105, 66, 107, 336, 296, 334, 293, 300]

/-- Per-index fraction of the base extension distance: indices 162, 21, 54
and 103 move 30 percent, index 67 moves 80 percent, every other top-arc
index moves the full distance. -/
def extensionFactor (idx : Nat) : ℚ :=
  if idx ∈ [162, 21, 54, 103] then 3/10
  else if idx = 67 then 8/10
  else 1

/-- The five fixed lateral x nudges applied to specific top-arc indices. -/
def lateralNudge (idx : Nat) : ℚ :=
  if idx = 162 then 20
  else if idx = 21 then 15
  else if idx = 54 then 10
  else if idx = 103 then -10
  else if idx = 67 then -5
  else 0

/-- The in-range top-arc points, as collected by the source's bounds-checked
comprehension `[[x, y] for i in top_forehead_indices if i < len(landmarks)]`. -/
def topArcPoints (lms : List Pt) : List Pt := topForeheadIndices.filterMap lms.get?

/-- The in-range eyebrow reference points (same bounds-checked comprehension). -/
def eyebrowPoints (lms : List Pt) : List Pt := eyebrowIndices.filterMap lms.get?

/-- Mean y of the in-range top-arc points (`np.mean(top_arc[:, 1])`). -/
def topYavg (lms : List Pt) : ℚ :=
  ((topArcPoints lms).map Pt.y).sum / (topArcPoints lms).length

/-- Mean y of the in-range eyebrow points (`np.mean(eyebrow_points[:, 1])`). -/
def eyebrowYavg (lms : List Pt) : ℚ :=
  ((eyebrowPoints lms).map Pt.y).sum / (eyebrowPoints lms).length

/-- `forehead_height * extension_ratio`: the base extension distance. -/
def baseExtension (lms : List Pt) (ratio : ℚ) : ℚ :=
  (eyebrowYavg lms - topYavg lms) * ratio

/-- The displaced coordinates of one top-arc index: y moves up by its
per-index fraction of the base distance and x receives its fixed nudge.
`none` when the landmark index is out of range (only reachable when the
whole call already raises). -/
def extendedCoord (lms : List Pt) (ratio : ℚ) (idx : Nat) : Option Pt :=
  (lms.get? idx).map fun p =>
    ⟨p.x + lateralNudge idx, p.y - baseExtension lms ratio * extensionFactor idx⟩

/-- The source's final loop over `forehead_indices`: top-arc indices take
their extended coordinates, every other index reads `landmarks[idx]`
directly, with no bounds check — an out-of-range index there raises
(modelled as `none`). -/
def resolveBoundary (lms : List Pt) (ratio : ℚ) : List Nat → Option (List Pt)
  | [] => some []
  | idx :: rest =>
    match (if idx ∈ topForeheadIndices then extendedCoord lms ratio idx else lms.get? idx) with
    | none => none
    | some p => (resolveBoundary lms ratio rest).map (p :: ·)

/-- Embedding of `final_code.extrapolate_forehead_to_hairline`.
Returns `none` exactly when the Python function raises: the extension loop
enumerates all 12 top-arc indices but indexes into the bounds-checked
`top_arc` array, so any out-of-range top-arc index raises IndexError; an
empty top-arc or eyebrow array raises at the mean computation; and the
final boundary loop raises on any out-of-range non-top-arc index. -/
def extrapolate_forehead_to_hairline (lms : List Pt) (fidx : List Nat) (ratio : ℚ) :
    Option (List Pt) :=
  if (topArcPoints lms).length < topForeheadIndices.length ∨ eyebrowPoints lms = [] then none
  else resolveBoundary lms ratio fidx

/-- Resolution of one region's points in `final_code.generate_svg_mask_overlay`:
the forehead region is replaced by the ForeheadExtrapolator's output (called
with the fixed `extension_ratio=1.5`), every other region resolves its
indices directly with the bounds-checked comprehension. -/
def regionPoints (lms : List Pt) (name : String) (idxs : List Nat) : Option (List Pt) :=
  if name = "forehead" then extrapolate_forehead_to_hairline lms idxs (3/2)
  else some (idxs.filterMap lms.get?)

/-- The region loop of `final_code.generate_svg_mask_overlay`: regions with
no configured color are skipped, the region's points are resolved (forehead
via the extrapolator), regions left with fewer than 3 points are skipped,
and each rendered region emits a filled path built by
`landmarks_to_svg_path(region_landmarks, closed=True)` (smooth defaults to
true) followed, when labels are on, by a centroid text element carrying the
running label counter. -/
def renderRegions (lms : List Pt) (colors : List (String × String))
    (opac : List (String × ℚ)) (showLabels : Bool) (strokeW : Nat) :
    List (String × List Nat) → Nat → Option (List SvgPart)
  | [], _ => some []
  | (name, idxs) :: rest, counter =>
    match colors.lookup name with
    | none => renderRegions lms colors opac showLabels strokeW rest counter
    | some color =>
      match regionPoints lms name idxs with
      | none => none
      | some pts =>
        if pts.length < 3 then renderRegions lms colors opac showLabels strokeW rest counter
        else
          let d := landmarks_to_svg_path pts true true
          let op := ((opac.lookup name).getD (3/5))
          let labelParts :=
            if showLabels then
              [SvgPart.text (fmt2 ((pts.map Pt.x).sum / pts.length))
                            (fmt2 ((pts.map Pt.y).sum / pts.length)) counter]
            else []
          (renderRegions lms colors opac showLabels strokeW rest
              (if showLabels then counter + 1 else counter)).map
            fun tail => SvgPart.path d color op strokeW :: (labelParts ++ tail)

/-- Embedding of `final_code.generate_svg_mask_overlay` at the level of the
emitted SVG elements: the optional embedded background image followed by
the region loop's output (label counter starting at 1). The `<svg>` header
and footer strings and the final newline join carry no claim content and
are not modelled. `none` when the forehead extrapolation raises. -/
def generate_svg_mask_overlay (lms : List Pt) (imageData : Option String)
    (regions : List (String × List Nat)) (colors : List (String × String))
    (opac : List (String × ℚ)) (showLabels : Bool) (strokeW : Nat) :
    Option (List SvgPart) :=
  (renderRegions lms colors opac showLabels strokeW regions 1).map
    fun rs => (match imageData with | some dat => [SvgPart.image dat] | none => []) ++ rs

end FinalCode

namespace SvgGeneration

/-- The region loop of `app/utils/svg_generation.generate_svg_mask_overlay`:
identical skipping rules, but every region — the forehead included —
resolves its points directly by bounds-checked index lookup (no
extrapolation), and the path is built by the app-side straight-line
builder `landmarks_to_svg_path(region_landmarks, closed=True)`. -/
def renderRegions (lms : List Pt) (colors : List (String × String))
    (opac : List (String × ℚ)) (showLabels : Bool) (strokeW : Nat) :
    List (String × List Nat) → Nat → List SvgPart
  | [], _ => []
  | (name, idxs) :: rest, counter =>
    match colors.lookup name with
    | none => renderRegions lms colors opac showLabels strokeW rest counter
    | some color =>
      let pts := idxs.filterMap lms.get?
      if pts.length < 3 then renderRegions lms colors opac showLabels strokeW rest counter
      else
        let d := landmarks_to_svg_path pts true
        let op := ((opac.lookup name).getD (13/20))
        let labelParts :=
          if showLabels then
            [SvgPart.text (fmt2 ((pts.map Pt.x).sum / pts.length))
                          (fmt2 ((pts.map Pt.y).sum / pts.length)) counter]
          else []
        SvgPart.path d color op strokeW ::
          (labelParts ++ renderRegions lms colors opac showLabels strokeW rest
            (if showLabels then counter + 1 else counter))

/-- Embedding of `app/utils/svg_generation.generate_svg_mask_overlay` at the
level of the emitted SVG elements (header/footer strings not modelled). -/
def generate_svg_mask_overlay (lms : List Pt) (imageData : Option String)
    (regions : List (String × List Nat)) (colors : List (String × String))
    (opac : List (String × ℚ)) (showLabels : Bool) (strokeW : Nat) : List SvgPart :=
  (match imageData with | some dat => [SvgPart.image dat] | none => []) ++
    renderRegions lms colors opac showLabels strokeW regions 1

end SvgGeneration

namespace Cache

/-- The cache-relevant fields of the `TaskResult` SQLAlchemy model
(`app/database/models.py`). `task_id` is the column with a unique
constraint; `input_hash` (the exact key) is only indexed, not unique.
Timestamps are modelled as naturals, the JSON payload as an opaque string. -/
structure TaskResultRec where
  task_id : String
  input_hash : String
  perceptual_hash : Option String
  status : String
  result_data : String
  processing_time_ms : ℚ
  cache_hits : Nat
  last_accessed : Nat
  ttl_expires_at : Option Nat
deriving DecidableEq, Repr

/-- The filter of `CacheService.get_cached_result`: exact key match, status
SUCCESS, and ttl either NULL or strictly in the future. -/
def cacheMatches (key : String) (now : Nat) (e : TaskResultRec) : Bool :=
  e.input_hash == key && e.status == "SUCCESS" &&
    (match e.ttl_expires_at with
     | none => true
     | some t => now < t)

/-- The hit-side mutation of `get_cached_result`: `cache_hits += 1` and
`last_accessed = utcnow()`. -/
def bumpHit (now : Nat) (e : TaskResultRec) : TaskResultRec :=
  { e with cache_hits := e.cache_hits + 1, last_accessed := now }

/-- Embedding of `CacheService.get_cached_result` over a list-of-rows store:
`.first()` takes the first row satisfying the filter; on a hit that row is
updated in place (hits bumped, last_accessed set) and returned (the code
builds its response dict from the row after the bump); on a miss nothing is
touched. Returns the response row and the new table state. -/
def get_cached_result (key : String) (now : Nat) :
    List TaskResultRec → Option TaskResultRec × List TaskResultRec
  | [] => (none, [])
  | e :: rest =>
    if cacheMatches key now e then (some (bumpHit now e), bumpHit now e :: rest)
    else
      let r := get_cached_result key now rest
      (r.1, e :: r.2)

/-- Embedding of `CacheService.store_task_result`: the existing-row lookup
filters on `task_id` (not on the exact key); a found row is overwritten in
place — its `input_hash` column is left untouched — and otherwise a fresh
row carrying the computed cache key is inserted. -/
def store_task_result (now ttlHours : Nat) (taskId cacheKey payload : String) (pt : ℚ) :
    List TaskResultRec → List TaskResultRec
  | [] =>
    [{ task_id := taskId, input_hash := cacheKey, perceptual_hash := none,
       status := "SUCCESS", result_data := payload, processing_time_ms := pt,
       cache_hits := 0, last_accessed := now, ttl_expires_at := some (now + ttlHours) }]
  | e :: rest =>
    if e.task_id == taskId then
      { e with status := "SUCCESS", result_data := payload, processing_time_ms := pt,
               ttl_expires_at := some (now + ttlHours) } :: rest
    else e :: store_task_result now ttlHours taskId cacheKey payload pt rest

/-- Embedding of `CacheService.store_task_error`: same task_id-keyed lookup;
a found row is flipped to FAILURE in place, otherwise a FAILURE row with no
payload and no ttl is inserted. -/
def store_task_error (now : Nat) (taskId cacheKey : String) :
    List TaskResultRec → List TaskResultRec
  | [] =>
    [{ task_id := taskId, input_hash := cacheKey, perceptual_hash := none,
       status := "FAILURE", result_data := "", processing_time_ms := 0,
       cache_hits := 0, last_accessed := now, ttl_expires_at := none }]
  | e :: rest =>
    if e.task_id == taskId then
      { e with status := "FAILURE" } :: rest
    else e :: store_task_error now taskId cacheKey rest

/-- Embedding of `CacheService.store_task_result_with_phash`: here the
existing-row lookup filters on `input_hash` (the exact key), so a repeated
key updates the existing row in place; only a genuinely new key inserts. -/
def store_task_result_with_phash (now ttlHours : Nat) (taskId exactKey phash payload : String)
    (pt : ℚ) : List TaskResultRec → List TaskResultRec
  | [] =>
    [{ task_id := taskId, input_hash := exactKey, perceptual_hash := some phash,
       status := "SUCCESS", result_data := payload, processing_time_ms := pt,
       cache_hits := 0, last_accessed := now, ttl_expires_at := some (now + ttlHours) }]
  | e :: rest =>
    if e.input_hash == exactKey then
      { e with result_data := payload, perceptual_hash := some phash,
               processing_time_ms := pt, ttl_expires_at := some (now + ttlHours),
               last_accessed := now } :: rest
    else e :: store_task_result_with_phash now ttlHours taskId exactKey phash payload pt rest

/-- The deletion filter of `CacheService.cleanup_expired_cache`: ttl
non-NULL and strictly in the past. -/
def isExpired (now : Nat) (e : TaskResultRec) : Bool :=
  match e.ttl_expires_at with
  | none => false
  | some t => t < now

/-- Embedding of `CacheService.cleanup_expired_cache`: bulk-deletes the rows
matching the expiry filter and returns how many were deleted, paired with
the surviving table state. -/
def cleanup_expired_cache (now : Nat) (db : List TaskResultRec) : Nat × List TaskResultRec :=
  (db.countP (isExpired now), db.filter (fun e => !isExpired now e))

end Cache

namespace PHash

/-- Value of one hex digit character, as read by Python `int(h, 16)` (the
hashes under study only ever contain valid lowercase hex digits; other
characters are given value 0 to keep the function total). -/
def hexDigitVal (c : Char) : Nat :=
  if '0' ≤ c ∧ c ≤ '9' then c.toNat - '0'.toNat
  else if 'a' ≤ c ∧ c ≤ 'f' then c.toNat - 'a'.toNat + 10
  else if 'A' ≤ c ∧ c ≤ 'F' then c.toNat - 'A'.toNat + 10
  else 0

/-- Python `int(h, 16)` on a hex string. -/
def hexToNat (s : String) : Nat := s.data.foldl (fun n c => n * 16 + hexDigitVal c) 0

/-- The lowercase hex digit character for a value below 16. -/
def hexDigitChar (n : Nat) : Char := "0123456789abcdef".data.getD n '0'

/-- Exactly `k` base-`base` digits of `n`, most significant first, with
leading zeros. -/
def digitsFixed (base : Nat) : Nat → Nat → List Nat
  | 0, _ => []
  | k + 1, n => digitsFixed base k (n / base) ++ [n % base]

/-- Number of digits in the minimal base-`base` representation of `n`
(1 for `n = 0`, matching Python's `bin(0)` and `format(0, 'x')`). The first
argument is structural-recursion fuel; any fuel at least the digit count —
in particular `n` itself — gives the true count. -/
def pyNumDigitsAux (base : Nat) : Nat → Nat → Nat
  | 0, _ => 0
  | fuel + 1, n => if n < base then 1 else pyNumDigitsAux base fuel (n / base) + 1

/-- Number of digits Python prints for `n` in base `base`. -/
def pyNumDigits (base n : Nat) : Nat := pyNumDigitsAux base n n

/-- The digit list produced by Python's zero-padded numeric formatting
(`format(n, '0{w}x')`, or `bin(n)[2:].zfill(w)`): the minimal digit string
of `n`, left-padded with zeros to at least `minWidth` digits. -/
def pyFormatDigits (base n minWidth : Nat) : List Nat :=
  digitsFixed base (max minWidth (pyNumDigits base n)) n

/-- Python `int(''.join('1' if bit else '0' for bits), 2)`. -/
def bitsToNat (bits : List Bool) : Nat :=
  bits.foldl (fun a b => 2 * a + (if b then 1 else 0)) 0

/-- The hex encoding step of `calculate_phash` (lines 64-66 of
`app/utils/perceptual_hash.py`): the row-major threshold bits are read as a
binary number and formatted as hex zero-padded to `hash_size^2 / 4`
digits. The DCT-and-median thresholding that produces the bits operates on
floating-point image data and is abstracted: theorems quantify over an
arbitrary bit matrix of the shape the code produces (`hash_size^2` bits). -/
def phashHexOfBits (bits : List Bool) (hashSize : Nat) : String :=
  ⟨(pyFormatDigits 16 (bitsToNat bits) (hashSize * hashSize / 4)).map hexDigitChar⟩

/-- Embedding of `hamming_distance`: strings of different lengths short-cut
to the sentinel `max(len) * 4` without parsing; equal lengths are parsed,
zero-filled to `len * 4` bits and compared position-wise. -/
def hamming_distance (h1 h2 : String) : Nat :=
  if h1.length ≠ h2.length then max h1.length h2.length * 4
  else
    let b1 := (pyFormatDigits 2 (hexToNat h1) (h1.length * 4)).map (· == 1)
    let b2 := (pyFormatDigits 2 (hexToNat h2) (h2.length * 4)).map (· == 1)
    (b1.zip b2).countP fun p => p.1 != p.2

/-- Embedding of `is_similar_image`: distance at most the threshold. -/
def is_similar_image (h1 h2 : String) (threshold : Nat) : Bool :=
  decide (hamming_distance h1 h2 ≤ threshold)

end PHash

namespace Cache

/-- The candidate filter of the perceptual phase of
`CacheService.get_perceptual_cached_result`: non-NULL perceptual hash,
status SUCCESS, ttl NULL or strictly in the future. -/
def perceptualCandidate (now : Nat) (e : TaskResultRec) : Bool :=
  e.perceptual_hash.isSome && e.status == "SUCCESS" &&
    (match e.ttl_expires_at with
     | none => true
     | some t => now < t)

/-- The best-match loop of `get_perceptual_cached_result`: starting from
`best_match = None, best_distance = threshold + 1`, each candidate whose
stored hash is truthy (non-None and non-empty — `if candidate.perceptual_hash:`)
has its Hamming distance to the query compared strictly against the best so
far. Strict comparison means a tie keeps the earlier candidate. -/
def scanCandidates (q : String) :
    List TaskResultRec → Option TaskResultRec → Nat → Option TaskResultRec × Nat
  | [], best, bd => (best, bd)
  | c :: rest, best, bd =>
    match c.perceptual_hash with
    | none => scanCandidates q rest best bd
    | some h =>
      if h = "" then scanCandidates q rest best bd
      else if PHash.hamming_distance q h < bd then
        scanCandidates q rest (some c) (PHash.hamming_distance q h)
      else scanCandidates q rest best bd

/-- The perceptual-similarity phase of `get_perceptual_cached_result` (run
after the exact phase misses): filter the candidates, scan for the best
match, and report it together with its distance only when within the
threshold. The hit-side bump of `cache_hits`/`last_accessed` mirrors the
exact phase and is not repeated here. -/
def get_perceptual_match (q : String) (threshold now : Nat) (db : List TaskResultRec) :
    Option (TaskResultRec × Nat) :=
  match scanCandidates q (db.filter (perceptualCandidate now)) none (threshold + 1) with
  | (some e, bd) => if bd ≤ threshold then some (e, bd) else none
  | (none, _) => none

/-- The data over which `app/database/utils.generate_cache_key` computes the
exact key: the source md5-hashes the image, landmark repr and segmentation
map strings (deterministic functions of them, recorded here by value),
stores `show_landmarks` as-is and — the field the claims exercise — the
opacity rounded to 2 decimals, then serializes the dict with sorted keys
and SHA256-hashes it. Equal records therefore yield equal cache keys, and
distinct records yield distinct serializations (the rounded opacity appears
verbatim in the JSON), hence distinct keys short of a SHA-256 collision. -/
structure CacheKeyData where
  image_data : String
  landmarksRepr : String
  segmentation_map : String
  show_landmarks : Bool
  region_opacity_cents : ℤ
deriving DecidableEq, Repr

/-- Embedding of `generate_cache_key` at the level of the serialized data. -/
def generate_cache_key (img lmRepr seg : String) (showLm : Bool) (opacity : ℚ) :
    CacheKeyData :=
  ⟨img, lmRepr, seg, showLm, roundCents opacity⟩

end Cache

/-! ## Concrete inputs and derived notions used by the theorems -/

/-- A 339-point diagonal grid of landmarks: every reference index of the
extrapolator is in range, the mean top-arc y is 169 and the mean eyebrow y
is 197, so the forehead height is positive. -/
def grid339 : List Pt := (List.range 339).map fun i => ⟨(i : ℚ), (i : ℚ)⟩

/-- The Hamming distance of a stored entry's perceptual hash to the query,
as computed inside the scan loop. -/
def pdist (q : String) (e : Cache.TaskResultRec) : Nat :=
  PHash.hamming_distance q (e.perceptual_hash.getD "")

/-- The sublist of stored entries the perceptual phase actually compares
against the query: Success, non-expired, with a non-null and non-empty
stored perceptual hash. -/
def consideredCandidates (now : Nat) (db : List Cache.TaskResultRec) :
    List Cache.TaskResultRec :=
  (db.filter (Cache.perceptualCandidate now)).filter
    fun e => e.perceptual_hash.getD "" != ""

/-- A concrete Success cache row with stored perceptual hash "0f". -/
def rowA : Cache.TaskResultRec := ⟨"a", "ka", some "0f", "SUCCESS", "ra", 0, 0, 0, none⟩

/-- A concrete Success cache row with stored perceptual hash "f0". -/
def rowB : Cache.TaskResultRec := ⟨"b", "kb", some "f0", "SUCCESS", "rb", 0, 0, 0, none⟩

/-! ## General helper lemmas -/

lemma countP_add_countP_not {α : Type} (p : α → Bool) (l : List α) :
    l.countP p + l.countP (fun a => !p a) = l.length := by
  induction l with
  | nil => simp
  | cons a l ih =>
    by_cases h : p a = true <;>
      simp [List.countP_cons, h, ← ih] <;> omega

/-! ## C6: cleanup deletes exactly the strictly-expired entries -/

/-- C6: `cleanup_expired_cache` deletes exactly those entries whose
`ttl_expires_at` is non-null and strictly in the past; entries with null or
future (or exactly-now) ttl are retained; the returned count equals the
number of entries deleted. -/
theorem C6_cleanup_exact (now : Nat) (db : List Cache.TaskResultRec) :
    ((Cache.cleanup_expired_cache now db).2 =
        db.filter (fun e => !Cache.isExpired now e))
    ∧ (∀ e, e ∈ (Cache.cleanup_expired_cache now db).2 ↔
        e ∈ db ∧ ∀ t, e.ttl_expires_at = some t → now ≤ t)
    ∧ (Cache.cleanup_expired_cache now db).1 = db.countP (Cache.isExpired now)
    ∧ (Cache.cleanup_expired_cache now db).1 +
        ((Cache.cleanup_expired_cache now db).2).length = db.length := by
  refine ⟨rfl, ?_, rfl, ?_⟩
  · intro e
    rw [Cache.cleanup_expired_cache, List.mem_filter]
    constructor
    · rintro ⟨hmem, hret⟩
      refine ⟨hmem, ?_⟩
      intro t ht
      unfold Cache.isExpired at hret
      rw [ht] at hret
      simp only [Bool.not_eq_true', decide_eq_false_iff_not, not_lt] at hret
      exact hret
    · rintro ⟨hmem, hret⟩
      refine ⟨hmem, ?_⟩
      unfold Cache.isExpired
      cases hcase : e.ttl_expires_at with
      | none => simp
      | some t =>
        have := hret t hcase
        simp only [Bool.not_eq_true', decide_eq_false_iff_not, not_lt]
        exact this
  · have h := countP_add_countP_not (Cache.isExpired now) db
    simpa [Cache.cleanup_expired_cache, List.countP_eq_length_filter] using h

/-- Witness for C6 at a concrete store state: one expired entry (ttl 5 <
now 10) is deleted, one null-ttl and one future-ttl entry are retained, and
the count is 1. -/
theorem C6_cleanup_exact_witness :
    (Cache.cleanup_expired_cache 10
        [{ task_id := "a", input_hash := "ka", perceptual_hash := none, status := "SUCCESS",
           result_data := "ra", processing_time_ms := 0, cache_hits := 0, last_accessed := 0,
           ttl_expires_at := some 5 },
         { task_id := "b", input_hash := "kb", perceptual_hash := none, status := "SUCCESS",
           result_data := "rb", processing_time_ms := 0, cache_hits := 0, last_accessed := 0,
           ttl_expires_at := none },
         { task_id := "c", input_hash := "kc", perceptual_hash := none, status := "SUCCESS",
           result_data := "rc", processing_time_ms := 0, cache_hits := 0, last_accessed := 0,
           ttl_expires_at := some 99 }]).1 = 1 := by
  have h := C6_cleanup_exact 10
      [{ task_id := "a", input_hash := "ka", perceptual_hash := none, status := "SUCCESS",
         result_data := "ra", processing_time_ms := 0, cache_hits := 0, last_accessed := 0,
         ttl_expires_at := some 5 },
       { task_id := "b", input_hash := "kb", perceptual_hash := none, status := "SUCCESS",
         result_data := "rb", processing_time_ms := 0, cache_hits := 0, last_accessed := 0,
         ttl_expires_at := none },
       { task_id := "c", input_hash := "kc", perceptual_hash := none, status := "SUCCESS",
         result_data := "rc", processing_time_ms := 0, cache_hits := 0, last_accessed := 0,
         ttl_expires_at := some 99 }]
  rw [h.2.2.1]
  decide

/-! ## C2: exact cache lookup -/

/-- C2: `get_cached_result` returns a payload if and only if some entry
matches the exact key with status SUCCESS and null-or-future ttl; on a hit
the first matching entry — and only that entry — has its hit counter
incremented by exactly 1 and its last_accessed set to now, and the returned
record carries the stored payload; on a miss the store is unchanged. -/
theorem C2_exact_lookup (key : String) (now : Nat) (db : List Cache.TaskResultRec) :
    ((Cache.get_cached_result key now db).1.isSome ↔
        ∃ e ∈ db, Cache.cacheMatches key now e)
    ∧ (∀ h, (Cache.get_cached_result key now db).1 = some h →
        ∃ db₁ e db₂, db = db₁ ++ e :: db₂
          ∧ (∀ x ∈ db₁, ¬ Cache.cacheMatches key now x)
          ∧ Cache.cacheMatches key now e
          ∧ h = Cache.bumpHit now e
          ∧ h.result_data = e.result_data
          ∧ h.cache_hits = e.cache_hits + 1
          ∧ h.last_accessed = now
          ∧ (Cache.get_cached_result key now db).2 = db₁ ++ Cache.bumpHit now e :: db₂)
    ∧ ((Cache.get_cached_result key now db).1 = none →
        (Cache.get_cached_result key now db).2 = db) := by
  induction db with
  | nil => simp [Cache.get_cached_result]
  | cons e rest ih =>
    by_cases hm : Cache.cacheMatches key now e
    · have hred : Cache.get_cached_result key now (e :: rest)
          = (some (Cache.bumpHit now e), Cache.bumpHit now e :: rest) := by
        simp [Cache.get_cached_result, hm]
      refine ⟨?_, ?_, ?_⟩
      · rw [hred]
        constructor
        · intro _
          exact ⟨e, List.mem_cons_self e rest, hm⟩
        · intro _
          rfl
      · intro h hh
        rw [hred] at hh
        have hbe : h = Cache.bumpHit now e := (Option.some_inj.mp hh).symm
        subst hbe
        exact ⟨[], e, rest, by simp, by simp, hm, rfl, rfl, rfl, rfl, by rw [hred]; rfl⟩
      · intro hnone
        rw [hred] at hnone
        exact absurd hnone (by simp)
    · refine ⟨?_, ?_, ?_⟩
      · simp only [Cache.get_cached_result, hm, if_neg, Bool.false_eq_true,
          not_false_eq_true]
        rw [ih.1]
        constructor
        · rintro ⟨x, hx, hmx⟩
          exact ⟨x, by simp [hx], hmx⟩
        · rintro ⟨x, hx, hmx⟩
          rcases List.mem_cons.mp hx with h1 | h1
          · exact absurd (h1 ▸ hmx) hm
          · exact ⟨x, h1, hmx⟩
      · intro h hh
        simp only [Cache.get_cached_result, hm, if_neg, Bool.false_eq_true,
          not_false_eq_true] at hh
        obtain ⟨db₁, x, db₂, hsplit, hpre, hmx, hbump, hpay, hhits, hlast, hsnd⟩ :=
          ih.2.1 h hh
        refine ⟨e :: db₁, x, db₂, by simp [hsplit], ?_, hmx, hbump, hpay, hhits, hlast, ?_⟩
        · intro y hy
          rcases List.mem_cons.mp hy with h1 | h1
          · exact h1 ▸ hm
          · exact hpre y h1
        · simp [Cache.get_cached_result, hm, hsnd]
      · intro hnone
        simp only [Cache.get_cached_result, hm, if_neg, Bool.false_eq_true,
          not_false_eq_true] at hnone ⊢
        rw [ih.2.2 hnone]

/-- Witness for C2: on a two-entry store whose second entry matches the key,
the lookup reports a hit. -/
theorem C2_exact_lookup_witness :
    (Cache.get_cached_result "k" 7
      [{ task_id := "t0", input_hash := "other", perceptual_hash := none, status := "SUCCESS",
         result_data := "r0", processing_time_ms := 0, cache_hits := 0, last_accessed := 0,
         ttl_expires_at := none },
       { task_id := "t1", input_hash := "k", perceptual_hash := none, status := "SUCCESS",
         result_data := "r1", processing_time_ms := 0, cache_hits := 3, last_accessed := 0,
         ttl_expires_at := some 9 }]).1.isSome := by
  apply (C2_exact_lookup "k" 7
    [{ task_id := "t0", input_hash := "other", perceptual_hash := none, status := "SUCCESS",
       result_data := "r0", processing_time_ms := 0, cache_hits := 0, last_accessed := 0,
       ttl_expires_at := none },
     { task_id := "t1", input_hash := "k", perceptual_hash := none, status := "SUCCESS",
       result_data := "r1", processing_time_ms := 0, cache_hits := 3, last_accessed := 0,
       ttl_expires_at := some 9 }]).1.mpr
  refine ⟨_, List.mem_cons_of_mem _ (List.mem_singleton.mpr rfl), ?_⟩
  decide

/-! ## C4: at most one cache entry per exact key -/

/-- Every row of the store after a phash upsert carries either the upserted
exact key or an exact key already present before the upsert. -/
lemma store_phash_hash_mem (now ttlH : Nat) (taskId exactKey phash payload : String) (pt : ℚ) :
    ∀ (db : List Cache.TaskResultRec) (x : Cache.TaskResultRec),
      x ∈ Cache.store_task_result_with_phash now ttlH taskId exactKey phash payload pt db →
      x.input_hash = exactKey ∨ x.input_hash ∈ db.map Cache.TaskResultRec.input_hash := by
  intro db
  induction db with
  | nil =>
    intro x hx
    simp only [Cache.store_task_result_with_phash, List.mem_singleton] at hx
    subst hx
    exact Or.inl rfl
  | cons e rest ih =>
    intro x hx
    by_cases he : e.input_hash = exactKey
    · rw [Cache.store_task_result_with_phash, if_pos (by simp [he])] at hx
      rcases List.mem_cons.mp hx with h1 | h1
      · subst h1
        exact Or.inl he
      · exact Or.inr (by simp [List.mem_map]; exact Or.inr ⟨x, h1, rfl⟩)
    · rw [Cache.store_task_result_with_phash, if_neg (by simp [he])] at hx
      rcases List.mem_cons.mp hx with h1 | h1
      · subst h1
        exact Or.inr (by simp)
      · rcases ih x h1 with h2 | h2
        · exact Or.inl h2
        · exact Or.inr (by simp [List.mem_map] at h2 ⊢; exact Or.inr h2)

/-- C4 (amended): `store_task_result_with_phash` upserts by exact key, so it
preserves the invariant that at most one cache entry exists per exact_key:
an existing entry with the stored key is updated in place (its key
unchanged) and a new entry is only inserted when no entry carries the key. -/
theorem C4_phash_upsert_preserves_key_uniqueness (now ttlH : Nat)
    (taskId exactKey phash payload : String) (pt : ℚ) (db : List Cache.TaskResultRec)
    (h : db.Pairwise (fun a b => a.input_hash ≠ b.input_hash)) :
    (Cache.store_task_result_with_phash now ttlH taskId exactKey phash payload pt db).Pairwise
      (fun a b => a.input_hash ≠ b.input_hash) := by
  induction db with
  | nil => simp [Cache.store_task_result_with_phash]
  | cons e rest ih =>
    rcases List.pairwise_cons.mp h with ⟨hhead, hrest⟩
    by_cases he : e.input_hash = exactKey
    · rw [Cache.store_task_result_with_phash, if_pos (by simp [he])]
      refine List.pairwise_cons.mpr ⟨?_, hrest⟩
      intro b hb
      exact hhead b hb
    · rw [Cache.store_task_result_with_phash, if_neg (by simp [he])]
      refine List.pairwise_cons.mpr ⟨?_, ih hrest⟩
      intro b hb
      rcases store_phash_hash_mem now ttlH taskId exactKey phash payload pt rest b hb with
        h1 | h1
      · rw [h1]
        exact he
      · obtain ⟨c, hc, hch⟩ := List.mem_map.mp h1
        rw [← hch]
        exact hhead c hc

/-- Witness for C4: a concrete upsert into a store already holding the key
keeps the store duplicate-free. -/
theorem C4_phash_upsert_witness :
    (Cache.store_task_result_with_phash 0 24 "t2" "k" "ph" "r2" 0
      [{ task_id := "t1", input_hash := "k", perceptual_hash := none, status := "SUCCESS",
         result_data := "r1", processing_time_ms := 0, cache_hits := 0, last_accessed := 0,
         ttl_expires_at := none }]).Pairwise (fun a b => a.input_hash ≠ b.input_hash) :=
  C4_phash_upsert_preserves_key_uniqueness 0 24 "t2" "k" "ph" "r2" 0
    [{ task_id := "t1", input_hash := "k", perceptual_hash := none, status := "SUCCESS",
       result_data := "r1", processing_time_ms := 0, cache_hits := 0, last_accessed := 0,
       ttl_expires_at := none }] (by decide)

/-- Counterexample for C4 as stated: `store_task_result` and
`store_task_error` deduplicate by `task_id`, not by exact key, so storing
under a fresh task_id whose inputs hash to an already-present exact key
appends a second entry with that key, breaking the at-most-one-per-key
invariant on a store that satisfied it. -/
theorem C4_counterexample :
    ([{ task_id := "t1", input_hash := "k", perceptual_hash := none, status := "SUCCESS",
        result_data := "r1", processing_time_ms := 0, cache_hits := 0, last_accessed := 0,
        ttl_expires_at := none }] : List Cache.TaskResultRec).Pairwise
          (fun a b => a.input_hash ≠ b.input_hash)
    ∧ ¬ (Cache.store_task_result 0 24 "t2" "k" "r2" 0
          [{ task_id := "t1", input_hash := "k", perceptual_hash := none, status := "SUCCESS",
             result_data := "r1", processing_time_ms := 0, cache_hits := 0, last_accessed := 0,
             ttl_expires_at := none }]).Pairwise (fun a b => a.input_hash ≠ b.input_hash)
    ∧ ¬ (Cache.store_task_error 0 "t2" "k"
          [{ task_id := "t1", input_hash := "k", perceptual_hash := none, status := "SUCCESS",
             result_data := "r1", processing_time_ms := 0, cache_hits := 0, last_accessed := 0,
             ttl_expires_at := none }]).Pairwise (fun a b => a.input_hash ≠ b.input_hash) := by
  refine ⟨by decide, ?_, ?_⟩ <;> decide

/-! ## C5: opacity rounding in the exact cache key -/

/-- Round-half-even never moves a value by more than one half. -/
lemma roundHalfEven_abs_le (q : ℚ) : |q - (roundHalfEven q : ℚ)| ≤ 1/2 := by
  have h1 : ((Rat.floor q : ℤ) : ℚ) ≤ q := Rat.le_floor.mp le_rfl
  have h2 : q < (Rat.floor q : ℚ) + 1 := by
    by_contra hcon
    push_neg at hcon
    have : (Rat.floor q + 1 : ℤ) ≤ Rat.floor q := Rat.le_floor.mpr (by push_cast; linarith)
    omega
  unfold roundHalfEven
  split_ifs with hc1 hc2 hc3 <;> push_cast <;> rw [abs_le] <;> constructor <;> linarith

/-- Opacities more than one hundredth apart round to different cents. -/
lemma roundCents_ne_of_far (o₁ o₂ : ℚ) (h : 1/100 < |o₁ - o₂|) :
    roundCents o₁ ≠ roundCents o₂ := by
  intro heq
  have b1 := roundHalfEven_abs_le (o₁ * 100)
  have b2 := roundHalfEven_abs_le (o₂ * 100)
  rw [roundCents, roundCents] at heq
  rw [heq] at b1
  have htri : |o₁ * 100 - o₂ * 100| ≤
      |o₁ * 100 - (roundHalfEven (o₂ * 100) : ℚ)| +
        |(roundHalfEven (o₂ * 100) : ℚ) - o₂ * 100| :=
    abs_sub_le _ _ _
  rw [abs_sub_comm ((roundHalfEven (o₂ * 100) : ℚ)) (o₂ * 100)] at htri
  have hmul : |o₁ * 100 - o₂ * 100| = |o₁ - o₂| * 100 := by
    rw [show o₁ * 100 - o₂ * 100 = (o₁ - o₂) * 100 by ring, abs_mul]
    norm_num
  rw [hmul] at htri
  nlinarith [abs_nonneg (o₁ - o₂)]

/-- C5 (amended): the exact cache key of `generate_cache_key` depends on the
opacity only through its value rounded to 2 decimals — equal rounded
opacities (all other request fields identical) give equal keys — and an
opacity difference strictly above 0.01 forces different rounded values and
hence different keys. (A difference below 0.005 preserves the key only when
the two values round to the same hundredth; straddling a rounding boundary
changes the key, see the counterexample.) -/
theorem C5_key_depends_on_rounded_opacity (img lmRepr seg : String) (showLm : Bool)
    (o₁ o₂ : ℚ) :
    (roundCents o₁ = roundCents o₂ →
        Cache.generate_cache_key img lmRepr seg showLm o₁
          = Cache.generate_cache_key img lmRepr seg showLm o₂)
    ∧ (1/100 < |o₁ - o₂| →
        Cache.generate_cache_key img lmRepr seg showLm o₁
          ≠ Cache.generate_cache_key img lmRepr seg showLm o₂) := by
  constructor
  · intro h
    simp [Cache.generate_cache_key, h]
  · intro h heq
    exact roundCents_ne_of_far o₁ o₂ h
      (congrArg Cache.CacheKeyData.region_opacity_cents heq)

/-- Witness for C5 (amended): 0.6444 and 0.64 round to the same cents and
give the same key; 0.6 and 0.65 are 0.05 apart and give different keys. -/
theorem C5_key_witness :
    Cache.generate_cache_key "i" "l" "s" true (1611/2500)
        = Cache.generate_cache_key "i" "l" "s" true (16/25)
    ∧ Cache.generate_cache_key "i" "l" "s" true (3/5)
        ≠ Cache.generate_cache_key "i" "l" "s" true (13/20) :=
  ⟨(C5_key_depends_on_rounded_opacity "i" "l" "s" true (1611/2500) (16/25)).1 (by decide),
   (C5_key_depends_on_rounded_opacity "i" "l" "s" true (3/5) (13/20)).2 (by
      rw [show (3:ℚ)/5 - 13/20 = -(1/20) by norm_num, abs_neg, abs_of_nonneg (by norm_num)]
      norm_num)⟩

/-- Counterexample for C5 as stated: the opacities 0.644 and 0.646 differ by
0.002 < 0.005 yet straddle the hundredth boundary, so they round to 64 and
65 cents and produce different exact keys, refuting "an opacity difference
strictly below 0.005 leaves the key unchanged". -/
theorem C5_counterexample :
    |(161:ℚ)/250 - 323/500| < 1/200
    ∧ Cache.generate_cache_key "img" "lms" "seg" false (161/250)
        ≠ Cache.generate_cache_key "img" "lms" "seg" false (323/500) := by
  constructor
  · rw [show (161:ℚ)/250 - 323/500 = -(1/500) by norm_num, abs_neg,
      abs_of_nonneg (by norm_num)]
    norm_num
  · decide

/-! ## C9: close-path behaviour of the PathBuilder -/

lemma lastChar_append (s t : String) (h : t.data ≠ []) : lastChar (s ++ t) = lastChar t := by
  unfold lastChar
  rw [String.data_append]
  exact List.getLast?_append_of_ne_nil _ h

lemma lastChar_joinParts_Z (head : String) (l : List String) :
    lastChar (joinParts (head :: (l ++ ["Z"]))) = some 'Z' := by
  induction l generalizing head with
  | nil =>
    show lastChar (head ++ " " ++ "Z") = some 'Z'
    rw [lastChar_append (head ++ " ") "Z" (by decide)]
    rfl
  | cons s l ih =>
    show lastChar (head ++ " " ++ joinParts (s :: (l ++ ["Z"]))) = some 'Z'
    have hin := ih s
    have hne : (joinParts (s :: (l ++ ["Z"]))).data ≠ [] := by
      intro hd
      unfold lastChar at hin
      rw [hd] at hin
      exact absurd hin (by simp)
    rw [lastChar_append (head ++ " ") _ hne]
    exact hin

/-- C9 (amended): for every point list of length at least 3, the PathBuilder
invoked with closed=true produces a path string ending in a close-path Z
instruction (smooth or not); the exactly-2-points case instead returns a
single straight segment with no close-path command. -/
theorem C9_closed_path_behaviour (lms : List Pt) (smooth : Bool) :
    (3 ≤ lms.length → lastChar (FinalCode.landmarks_to_svg_path lms true smooth) = some 'Z')
    ∧ (∀ a b : Pt, FinalCode.landmarks_to_svg_path [a, b] true smooth
        = "M " ++ fmtPt a ++ " L " ++ fmtPt b) := by
  constructor
  · intro h3
    unfold FinalCode.landmarks_to_svg_path
    rw [if_neg (by omega), if_neg (by omega)]
    by_cases hs : smooth = false ∨ lms.length = 3
    · rw [if_pos hs]
      exact lastChar_joinParts_Z _ _
    · rw [if_neg hs]
      exact lastChar_joinParts_Z _ _
  · intro a b
    rfl

/-- Witness for C9 (amended) on a concrete 4-point square. -/
theorem C9_closed_path_witness :
    lastChar (FinalCode.landmarks_to_svg_path [⟨0,0⟩, ⟨2,0⟩, ⟨2,2⟩, ⟨0,2⟩] true true)
      = some 'Z' :=
  (C9_closed_path_behaviour [⟨0,0⟩, ⟨2,0⟩, ⟨2,2⟩, ⟨0,2⟩] true).1 (by decide)

/-- Counterexample for C9 as stated: with exactly 2 points and closed=true
the PathBuilder returns the bare straight segment, which does not end in a
Z instruction. -/
theorem C9_counterexample :
    FinalCode.landmarks_to_svg_path [⟨0,0⟩, ⟨1,1⟩] true true = "M 0.00,0.00 L 1.00,1.00"
    ∧ lastChar (FinalCode.landmarks_to_svg_path [⟨0,0⟩, ⟨1,1⟩] true true) ≠ some 'Z' := by
  constructor
  · decide
  · decide

/-! ## C8 and C7: ForeheadExtrapolator totality and displacement -/

lemma get?_isSome_iff {α : Type} (l : List α) (n : Nat) :
    (l.get? n).isSome ↔ n < l.length := by
  constructor
  · intro h
    by_contra hc
    rw [List.get?_eq_none.mpr (by omega)] at h
    simp at h
  · intro h
    rw [List.get?_eq_get h]
    simp

lemma length_filterMap_eq_iff {α β : Type} (f : α → Option β) (l : List α) :
    (l.filterMap f).length = l.length ↔ ∀ a ∈ l, (f a).isSome := by
  induction l with
  | nil => simp
  | cons a l ih =>
    cases hfa : f a with
    | none =>
      have hle := List.length_filterMap_le f l
      simp only [List.filterMap_cons, hfa, List.length_cons]
      constructor
      · intro h
        exact absurd h (by omega)
      · intro h
        exact absurd (h a (List.mem_cons_self a l)) (by simp [hfa])
    | some b =>
      simp only [List.filterMap_cons, hfa, List.length_cons, Nat.add_right_cancel_iff, ih,
        List.mem_cons]
      constructor
      · intro h x hx
        rcases hx with h1 | h1
        · subst h1
          simp [hfa]
        · exact h x h1
      · intro h x hx
        exact h x (Or.inr hx)

lemma resolveBoundary_isSome_iff (lms : List Pt) (ratio : ℚ) (fidx : List Nat) :
    (FinalCode.resolveBoundary lms ratio fidx).isSome ↔
      ∀ idx ∈ fidx, (if idx ∈ FinalCode.topForeheadIndices
          then FinalCode.extendedCoord lms ratio idx else lms.get? idx).isSome := by
  induction fidx with
  | nil => simp [FinalCode.resolveBoundary]
  | cons idx rest ih =>
    rw [FinalCode.resolveBoundary]
    cases hb : (if idx ∈ FinalCode.topForeheadIndices
        then FinalCode.extendedCoord lms ratio idx else lms.get? idx) with
    | none =>
      simp only [Option.isSome_none]
      constructor
      · intro h
        exact absurd h (by simp)
      · intro h
        have hcontra := h idx (List.mem_cons_self idx rest)
        rw [hb] at hcontra
        simp at hcontra
    | some p =>
      simp only [List.mem_cons]
      constructor
      · intro h x hx
        rcases hx with h1 | h1
        · subst h1
          rw [hb]
          rfl
        · cases hrest : FinalCode.resolveBoundary lms ratio rest with
          | none => rw [hrest] at h; simp at h
          | some out => exact (ih.mp (by simp [hrest])) x h1
      · intro h
        have hrest : (FinalCode.resolveBoundary lms ratio rest).isSome :=
          ih.mpr (fun x hx => h x (Or.inr hx))
        obtain ⟨out, hout⟩ := Option.isSome_iff_exists.mp hrest
        rw [hout]
        simp

lemma resolveBoundary_get (lms : List Pt) (ratio : ℚ) :
    ∀ (fidx : List Nat) (out : List Pt),
      FinalCode.resolveBoundary lms ratio fidx = some out →
      out.length = fidx.length
      ∧ ∀ i idx, fidx.get? i = some idx →
          out.get? i = (if idx ∈ FinalCode.topForeheadIndices
              then FinalCode.extendedCoord lms ratio idx else lms.get? idx)
  | [], out, h => by
    simp only [FinalCode.resolveBoundary, Option.some_inj] at h
    subst h
    exact ⟨rfl, by intro i idx h; simp at h⟩
  | idx :: rest, out, h => by
    rw [FinalCode.resolveBoundary] at h
    cases hb : (if idx ∈ FinalCode.topForeheadIndices
        then FinalCode.extendedCoord lms ratio idx else lms.get? idx) with
    | none => rw [hb] at h; simp at h
    | some p =>
      rw [hb] at h
      cases hrest : FinalCode.resolveBoundary lms ratio rest with
      | none => rw [hrest] at h; simp at h
      | some tail =>
        rw [hrest] at h
        have h' : p :: tail = out := by simpa using h
        subst h'
        obtain ⟨hlen, hget⟩ := resolveBoundary_get lms ratio rest tail hrest
        refine ⟨by simp [hlen], ?_⟩
        intro i idx' hi
        cases i with
        | zero =>
          simp only [List.get?] at hi ⊢
          rw [← Option.some_inj.mp hi]
          exact hb.symm
        | succ n =>
          simp only [List.get?] at hi ⊢
          exact hget n idx' hi

/-- C8 (amended): the forehead extrapolation returns normally precisely when
every one of the 12 top-arc indices is in range, at least one eyebrow
reference index is in range, and every non-top-arc entry of the forehead
index list is in range; out-of-range indices are silently skipped only in
the reference-mean computation. On success the output has the same length
(and, componentwise, the same order) as the input index list. -/
theorem C8_extrapolation_totality (lms : List Pt) (fidx : List Nat) (ratio : ℚ) :
    ((FinalCode.extrapolate_forehead_to_hairline lms fidx ratio).isSome ↔
      (∀ i ∈ FinalCode.topForeheadIndices, i < lms.length)
      ∧ (∃ i ∈ FinalCode.eyebrowIndices, i < lms.length)
      ∧ (∀ i ∈ fidx, i ∉ FinalCode.topForeheadIndices → i < lms.length))
    ∧ (∀ out, FinalCode.extrapolate_forehead_to_hairline lms fidx ratio = some out →
        out.length = fidx.length
        ∧ ∀ i idx, fidx.get? i = some idx →
            out.get? i = (if idx ∈ FinalCode.topForeheadIndices
                then FinalCode.extendedCoord lms ratio idx else lms.get? idx)) := by
  constructor
  · unfold FinalCode.extrapolate_forehead_to_hairline
    by_cases hg : (FinalCode.topArcPoints lms).length < FinalCode.topForeheadIndices.length
        ∨ FinalCode.eyebrowPoints lms = []
    · rw [if_pos hg]
      simp only [Option.isSome_none, Bool.false_eq_true, false_iff]
      rintro ⟨htop, ⟨i, hi, hlt⟩, -⟩
      rcases hg with h1 | h1
      · have heq : (FinalCode.topArcPoints lms).length
            = FinalCode.topForeheadIndices.length := by
          rw [FinalCode.topArcPoints, length_filterMap_eq_iff]
          intro j hj
          exact (get?_isSome_iff lms j).mpr (htop j hj)
        omega
      · rw [FinalCode.eyebrowPoints, List.filterMap_eq_nil_iff] at h1
        have := h1 i hi
        rw [List.get?_eq_none] at this
        omega
    · rw [if_neg hg]
      push_neg at hg
      obtain ⟨h1, h2⟩ := hg
      have htop : ∀ i ∈ FinalCode.topForeheadIndices, i < lms.length := by
        have hle := List.length_filterMap_le lms.get? FinalCode.topForeheadIndices
        have heq : (FinalCode.topArcPoints lms).length
            = FinalCode.topForeheadIndices.length := by
          rw [FinalCode.topArcPoints] at h1 ⊢
          omega
        rw [FinalCode.topArcPoints, length_filterMap_eq_iff] at heq
        intro i hi
        exact (get?_isSome_iff lms i).mp (heq i hi)
      have hey : ∃ i ∈ FinalCode.eyebrowIndices, i < lms.length := by
        rcases hne : FinalCode.eyebrowPoints lms with - | ⟨p, rest⟩
        · exact absurd hne h2
        · by_contra hc
          push_neg at hc
          have : FinalCode.eyebrowPoints lms = [] := by
            rw [FinalCode.eyebrowPoints, List.filterMap_eq_nil_iff]
            intro i hi
            rw [List.get?_eq_none]
            exact hc i hi
          rw [this] at hne
          exact absurd hne (by simp)
      rw [resolveBoundary_isSome_iff]
      constructor
      · intro h
        refine ⟨htop, hey, ?_⟩
        intro i hi hnot
        have := h i hi
        rw [if_neg hnot] at this
        exact (get?_isSome_iff lms i).mp this
      · rintro ⟨-, -, hrange⟩ idx hidx
        by_cases hmem : idx ∈ FinalCode.topForeheadIndices
        · rw [if_pos hmem, FinalCode.extendedCoord]
          have : (lms.get? idx).isSome := (get?_isSome_iff lms idx).mpr (htop idx hmem)
          obtain ⟨p, hp⟩ := Option.isSome_iff_exists.mp this
          rw [hp]
          simp
        · rw [if_neg hmem]
          exact (get?_isSome_iff lms idx).mpr (hrange idx hidx hmem)
  · intro out hout
    unfold FinalCode.extrapolate_forehead_to_hairline at hout
    by_cases hg : (FinalCode.topArcPoints lms).length < FinalCode.topForeheadIndices.length
        ∨ FinalCode.eyebrowPoints lms = []
    · rw [if_pos hg] at hout
      exact absurd hout (by simp)
    · rw [if_neg hg] at hout
      exact resolveBoundary_get lms ratio fidx out hout

/-- Witness for C8 (amended): on 339 grid landmarks every reference index is
in range and the non-top index 0 is in range, so the call succeeds, and the
0th output point is positionally the resolved 0th input index (a
pass-through of landmark 0). -/
theorem C8_extrapolation_totality_witness :
    (FinalCode.extrapolate_forehead_to_hairline grid339 [0] 1).isSome
    ∧ ([(⟨0, 0⟩ : Pt)] : List Pt).get? 0 = grid339.get? 0 := by
  constructor
  · exact (C8_extrapolation_totality grid339 [0] 1).1.mpr
      ⟨by decide, ⟨70, by decide, by decide⟩, by decide⟩
  · have h := ((C8_extrapolation_totality grid339 [0] 1).2 [⟨0, 0⟩] (by decide)).2
      0 0 (by decide)
    rw [if_neg (by decide)] at h
    exact h

/-- Counterexample for C8 as stated: with 339 landmarks (all reference
indices in range) and the single out-of-range boundary index 400, the
Python function raises IndexError at `landmarks[idx]` in its final loop
(modelled as `none`) instead of skipping the index. -/
theorem C8_counterexample :
    FinalCode.extrapolate_forehead_to_hairline
      ((List.range 339).map fun i => ⟨(i : ℚ), (i : ℚ)⟩) [400] 1 = none := by
  decide

lemma extensionFactor_pos (idx : Nat) : 0 < FinalCode.extensionFactor idx := by
  unfold FinalCode.extensionFactor
  split_ifs <;> norm_num

/-- C7 (amended): whenever the extrapolation returns normally, the extension
ratio is positive and the mean eyebrow reference y strictly exceeds the
mean top-arc y (positive forehead height), every top-arc index in the
output has a strictly smaller y coordinate than its source landmark, and
every non-top-arc index is returned with coordinates equal to its source
landmark. -/
theorem C7_top_arc_moves_up (lms : List Pt) (fidx : List Nat) (ratio : ℚ) (out : List Pt)
    (hout : FinalCode.extrapolate_forehead_to_hairline lms fidx ratio = some out)
    (hr : 0 < ratio) (hh : FinalCode.topYavg lms < FinalCode.eyebrowYavg lms) :
    out.length = fidx.length
    ∧ ∀ i idx p, fidx.get? i = some idx → lms.get? idx = some p →
        (idx ∈ FinalCode.topForeheadIndices → ∀ p', out.get? i = some p' → p'.y < p.y)
        ∧ (idx ∉ FinalCode.topForeheadIndices → out.get? i = some p) := by
  unfold FinalCode.extrapolate_forehead_to_hairline at hout
  by_cases hg : (FinalCode.topArcPoints lms).length < FinalCode.topForeheadIndices.length
      ∨ FinalCode.eyebrowPoints lms = []
  · rw [if_pos hg] at hout
    exact absurd hout (by simp)
  · rw [if_neg hg] at hout
    obtain ⟨hlen, hget⟩ := resolveBoundary_get lms ratio fidx out hout
    refine ⟨hlen, ?_⟩
    intro i idx p hi hp
    have hbase : 0 < FinalCode.baseExtension lms ratio :=
      mul_pos (sub_pos.mpr hh) hr
    constructor
    · intro hmem p' hp'
      have hbranch := hget i idx hi
      rw [if_pos hmem, FinalCode.extendedCoord, hp] at hbranch
      rw [hbranch] at hp'
      have hpp : (⟨p.x + FinalCode.lateralNudge idx,
          p.y - FinalCode.baseExtension lms ratio * FinalCode.extensionFactor idx⟩ : Pt)
            = p' := by
        simpa using hp'
      rw [← hpp]
      have : 0 < FinalCode.baseExtension lms ratio * FinalCode.extensionFactor idx :=
        mul_pos hbase (extensionFactor_pos idx)
      show p.y - FinalCode.baseExtension lms ratio * FinalCode.extensionFactor idx < p.y
      linarith
    · intro hmem
      have hbranch := hget i idx hi
      rw [if_neg hmem, hp] at hbranch
      exact hbranch

/-- Witness for C7 (amended): on the diagonal grid with ratio 1, the
top-arc index 10 (source point (10,10)) is returned with y = -18 < 10,
and the non-top-arc index 0 passes through unchanged. -/
theorem C7_top_arc_moves_up_witness :
    FinalCode.extrapolate_forehead_to_hairline grid339 [10, 0] 1
        = some [⟨10, -18⟩, ⟨0, 0⟩]
    ∧ (⟨10, -18⟩ : Pt).y < (⟨10, 10⟩ : Pt).y
    ∧ ([⟨10, -18⟩, ⟨0, 0⟩] : List Pt).get? 1 = some ⟨0, 0⟩ := by
  have h := C7_top_arc_moves_up grid339 [10, 0] 1 [⟨10, -18⟩, ⟨0, 0⟩]
    (by decide) (by norm_num) (by decide)
  refine ⟨by decide, ?_, ?_⟩
  · exact (h.2 0 10 ⟨10, 10⟩ (by decide) (by decide)).1 (by decide) ⟨10, -18⟩ (by decide)
  · exact (h.2 1 0 ⟨0, 0⟩ (by decide) (by decide)).2 (by decide)

/-- Counterexample for C7 as stated: on a landmark set where all points
coincide (zero forehead height), extension_ratio = 1 > 0 moves no top-arc
point at all — index 10 is returned with the same y as its source — so the
strict upward movement claimed for every landmark set fails. -/
theorem C7_counterexample :
    FinalCode.extrapolate_forehead_to_hairline (List.replicate 339 (⟨0, 0⟩ : Pt)) [10] 1
        = some [⟨0, 0⟩]
    ∧ (List.replicate 339 (⟨0, 0⟩ : Pt)).get? 10 = some ⟨0, 0⟩
    ∧ 10 ∈ FinalCode.topForeheadIndices
    ∧ (0 : ℚ) < 1
    ∧ ¬ ((⟨0, 0⟩ : Pt).y < (⟨0, 0⟩ : Pt).y) := by
  refine ⟨by decide, by decide, by decide, by norm_num, by simp⟩

/-! ## C10: degraded-mode hashes never match normal hashes -/

lemma length_digitsFixed (base : Nat) : ∀ (k n : Nat), (PHash.digitsFixed base k n).length = k
  | 0, _ => rfl
  | k + 1, n => by
    rw [PHash.digitsFixed]
    simp [length_digitsFixed base k]

lemma bitsToNat_foldl_lt : ∀ (bits : List Bool) (acc : Nat),
    bits.foldl (fun a b => 2 * a + (if b then 1 else 0)) acc < (acc + 1) * 2 ^ bits.length := by
  intro bits
  induction bits with
  | nil => intro acc; simp
  | cons b rest ih =>
    intro acc
    simp only [List.foldl_cons, List.length_cons]
    calc rest.foldl (fun a b => 2 * a + (if b then 1 else 0)) (2 * acc + (if b then 1 else 0))
        < (2 * acc + (if b then 1 else 0) + 1) * 2 ^ rest.length := ih _
      _ ≤ (2 * (acc + 1)) * 2 ^ rest.length :=
          Nat.mul_le_mul_right _ (by split_ifs <;> omega)
      _ = (acc + 1) * 2 ^ (rest.length + 1) := by
          rw [pow_succ]
          ring

lemma bitsToNat_lt (bits : List Bool) : PHash.bitsToNat bits < 2 ^ bits.length := by
  have h := bitsToNat_foldl_lt bits 0
  simpa [PHash.bitsToNat] using h

lemma pyNumDigitsAux_le (base : Nat) (hb : 2 ≤ base) :
    ∀ (fuel n k : Nat), n ≤ fuel → n < base ^ k → 1 ≤ k →
      PHash.pyNumDigitsAux base fuel n ≤ k := by
  intro fuel
  induction fuel with
  | zero =>
    intro n k hn hk h1
    rw [PHash.pyNumDigitsAux]
    omega
  | succ fuel ih =>
    intro n k hn hk h1
    rw [PHash.pyNumDigitsAux]
    by_cases hnb : n < base
    · rw [if_pos hnb]
      exact h1
    · rw [if_neg hnb]
      cases k with
      | zero => omega
      | succ k' =>
        cases k' with
        | zero =>
          rw [pow_one] at hk
          omega
        | succ k'' =>
          have hdiv : n / base ≤ fuel := by
            have : n / base < n := Nat.div_lt_self (by omega) (by omega)
            omega
          have hklt : n / base < base ^ (k'' + 1) := by
            rw [Nat.div_lt_iff_lt_mul (by omega)]
            calc n < base ^ (k'' + 1 + 1) := hk
              _ = base ^ (k'' + 1) * base := by rw [pow_succ]
          have := ih (n / base) (k'' + 1) hdiv hklt (by omega)
          omega

/-- Any default-size (N = 8, 64-bit) perceptual hash serializes to exactly
16 hex digits. -/
lemma phashHex_length (bits : List Bool) (hb : bits.length = 64) :
    (PHash.phashHexOfBits bits 8).length = 16 := by
  have hlt : PHash.bitsToNat bits < 16 ^ 16 := by
    have h := bitsToNat_lt bits
    rw [hb] at h
    calc PHash.bitsToNat bits < 2 ^ 64 := h
      _ = 16 ^ 16 := by norm_num
  have hnd : PHash.pyNumDigits 16 (PHash.bitsToNat bits) ≤ 16 :=
    pyNumDigitsAux_le 16 (by norm_num) (PHash.bitsToNat bits) (PHash.bitsToNat bits) 16
      le_rfl hlt (by norm_num)
  show ((PHash.pyFormatDigits 16 (PHash.bitsToNat bits) (8 * 8 / 4)).map
    PHash.hexDigitChar).length = 16
  rw [List.length_map, PHash.pyFormatDigits, length_digitsFixed]
  omega

/-- C10: the MD5 fallback hash of the degraded mode has 32 hex digits while
every successful default-size perceptual hash has 16, so their Hamming
distance is the length-mismatch sentinel max(16,32)*4 = 128 and the
similarity predicate at the default threshold 10 is false: a degraded-mode
hash can never produce a perceptual cache match against a normally hashed
entry. (The 32-digit length of `hashlib.md5(...).hexdigest()` is a fixed
property of the library and is taken as the hypothesis `hf`; the DCT
threshold bits are universally quantified with the 8x8 shape the code
produces.) -/
theorem C10_fallback_never_matches (bits : List Bool) (hb : bits.length = 64)
    (fb : String) (hf : fb.length = 32) :
    (PHash.phashHexOfBits bits 8).length = 16
    ∧ PHash.hamming_distance (PHash.phashHexOfBits bits 8) fb = 128
    ∧ PHash.is_similar_image (PHash.phashHexOfBits bits 8) fb 10 = false := by
  have hlen := phashHex_length bits hb
  have hd : PHash.hamming_distance (PHash.phashHexOfBits bits 8) fb = 128 := by
    unfold PHash.hamming_distance
    rw [if_pos (by rw [hlen, hf]; omega), hlen, hf]
    decide
  refine ⟨hlen, hd, ?_⟩
  unfold PHash.is_similar_image
  rw [hd]
  rfl

/-- Witness for C10: the all-ones 64-bit hash against a concrete 32-digit
fallback hash is at sentinel distance 128. -/
theorem C10_fallback_witness :
    PHash.hamming_distance (PHash.phashHexOfBits (List.replicate 64 true) 8)
      "0123456789abcdef0123456789abcdef" = 128 :=
  (C10_fallback_never_matches (List.replicate 64 true) (by decide)
    "0123456789abcdef0123456789abcdef" (by decide)).2.1

/-! ## C1: forehead replacement and closed smooth paths in the renderer -/

lemma renderRegions_cons_nocolor (lms : List Pt) (colors : List (String × String))
    (opac : List (String × ℚ)) (sl : Bool) (sw : Nat) (rname : String) (ridxs : List Nat)
    (rest : List (String × List Nat)) (counter : Nat)
    (hc : colors.lookup rname = none) :
    FinalCode.renderRegions lms colors opac sl sw ((rname, ridxs) :: rest) counter
      = FinalCode.renderRegions lms colors opac sl sw rest counter := by
  rw [FinalCode.renderRegions, hc]

lemma renderRegions_cons_small (lms : List Pt) (colors : List (String × String))
    (opac : List (String × ℚ)) (sl : Bool) (sw : Nat) (rname : String) (ridxs : List Nat)
    (rest : List (String × List Nat)) (counter : Nat) (c : String) (rpts : List Pt)
    (hc : colors.lookup rname = some c)
    (hrp : FinalCode.regionPoints lms rname ridxs = some rpts)
    (hlen : rpts.length < 3) :
    FinalCode.renderRegions lms colors opac sl sw ((rname, ridxs) :: rest) counter
      = FinalCode.renderRegions lms colors opac sl sw rest counter := by
  rw [FinalCode.renderRegions, hc, hrp]
  exact if_pos hlen

lemma renderRegions_cons_render (lms : List Pt) (colors : List (String × String))
    (opac : List (String × ℚ)) (sl : Bool) (sw : Nat) (rname : String) (ridxs : List Nat)
    (rest : List (String × List Nat)) (counter : Nat) (c : String) (rpts : List Pt)
    (hc : colors.lookup rname = some c)
    (hrp : FinalCode.regionPoints lms rname ridxs = some rpts)
    (hlen : ¬ rpts.length < 3) :
    FinalCode.renderRegions lms colors opac sl sw ((rname, ridxs) :: rest) counter
      = (FinalCode.renderRegions lms colors opac sl sw rest
          (if sl then counter + 1 else counter)).map
            fun tail => SvgPart.path (FinalCode.landmarks_to_svg_path rpts true true) c
                ((opac.lookup rname).getD (3/5)) sw ::
              ((if sl then
                  [SvgPart.text (fmt2 ((rpts.map Pt.x).sum / rpts.length))
                                (fmt2 ((rpts.map Pt.y).sum / rpts.length)) counter]
                else []) ++ tail) := by
  rw [FinalCode.renderRegions, hc, hrp]
  exact if_neg hlen

/-- C1 (amended, part proved over `final_code.generate_svg_mask_overlay`'s
region loop): whenever the render succeeds, every region of the region map
that is rendered (configured color, resolved points, at least 3 of them)
contributes a path element whose d-string is built by the PathBuilder with
closed=true and smooth=true from the region's resolved points, and for the
forehead region those resolved points are exactly the ForeheadExtrapolator's
output at extension ratio 1.5. -/
theorem C1_forehead_replacement_and_smooth_paths (lms : List Pt)
    (colors : List (String × String)) (opac : List (String × ℚ)) (showLabels : Bool)
    (strokeW : Nat) :
    ∀ (regions : List (String × List Nat)) (counter : Nat) (parts : List SvgPart),
      FinalCode.renderRegions lms colors opac showLabels strokeW regions counter
        = some parts →
      ∀ name idxs, (name, idxs) ∈ regions →
        ∀ color, colors.lookup name = some color →
          ∀ pts, FinalCode.regionPoints lms name idxs = some pts → 3 ≤ pts.length →
            SvgPart.path (FinalCode.landmarks_to_svg_path pts true true) color
                ((opac.lookup name).getD (3/5)) strokeW ∈ parts
            ∧ (name = "forehead" →
                FinalCode.extrapolate_forehead_to_hairline lms idxs (3/2) = some pts) := by
  intro regions
  induction regions with
  | nil =>
    intro counter parts h name idxs hmem
    exact absurd hmem (by simp)
  | cons region rest ih =>
    obtain ⟨rname, ridxs⟩ := region
    intro counter parts h name idxs hmem color hcolor pts hpts h3
    have hfore : name = "forehead" →
        FinalCode.extrapolate_forehead_to_hairline lms idxs (3/2) = some pts := by
      intro hname
      rw [FinalCode.regionPoints, if_pos hname] at hpts
      exact hpts
    rcases List.mem_cons.mp hmem with hhead | htail
    · have hn : name = rname := congrArg Prod.fst hhead
      have hx : idxs = ridxs := congrArg Prod.snd hhead
      subst hn
      subst hx
      rw [renderRegions_cons_render lms colors opac showLabels strokeW name idxs rest
        counter color pts hcolor hpts (by omega)] at h
      cases hrec : FinalCode.renderRegions lms colors opac showLabels strokeW rest
          (if showLabels then counter + 1 else counter) with
      | none =>
        rw [hrec] at h
        exact absurd h (by simp)
      | some tail =>
        rw [hrec] at h
        have hparts : SvgPart.path (FinalCode.landmarks_to_svg_path pts true true) color
            ((opac.lookup name).getD (3/5)) strokeW ::
              ((if showLabels then
                  [SvgPart.text (fmt2 ((pts.map Pt.x).sum / pts.length))
                                (fmt2 ((pts.map Pt.y).sum / pts.length)) counter]
                else []) ++ tail) = parts := by
          simpa using h
        rw [← hparts]
        exact ⟨List.mem_cons_self _ _, hfore⟩
    · cases hc : colors.lookup rname with
      | none =>
        rw [renderRegions_cons_nocolor lms colors opac showLabels strokeW rname ridxs rest
          counter hc] at h
        exact ⟨(ih counter parts h name idxs htail color hcolor pts hpts h3).1, hfore⟩
      | some c =>
        cases hrp : FinalCode.regionPoints lms rname ridxs with
        | none =>
          rw [FinalCode.renderRegions, hc, hrp] at h
          exact absurd h (by simp)
        | some rpts =>
          by_cases hlen : rpts.length < 3
          · rw [renderRegions_cons_small lms colors opac showLabels strokeW rname ridxs rest
              counter c rpts hc hrp hlen] at h
            exact ⟨(ih counter parts h name idxs htail color hcolor pts hpts h3).1, hfore⟩
          · rw [renderRegions_cons_render lms colors opac showLabels strokeW rname ridxs rest
              counter c rpts hc hrp hlen] at h
            cases hrec : FinalCode.renderRegions lms colors opac showLabels strokeW rest
                (if showLabels then counter + 1 else counter) with
            | none =>
              rw [hrec] at h
              exact absurd h (by simp)
            | some tail =>
              rw [hrec] at h
              have hparts : SvgPart.path (FinalCode.landmarks_to_svg_path rpts true true) c
                  ((opac.lookup rname).getD (3/5)) strokeW ::
                    ((if showLabels then
                        [SvgPart.text (fmt2 ((rpts.map Pt.x).sum / rpts.length))
                                      (fmt2 ((rpts.map Pt.y).sum / rpts.length)) counter]
                      else []) ++ tail) = parts := by
                simpa using h
              have hmemtail :=
                (ih (if showLabels then counter + 1 else counter) tail hrec
                  name idxs htail color hcolor pts hpts h3).1
              rw [← hparts]
              refine ⟨List.mem_cons_of_mem _ (List.mem_append_right _ hmemtail), hfore⟩

/-- Witness for C1 (amended): a concrete successful render of a
custom forehead region over the diagonal grid emits the closed smooth path
of the extrapolator's output (here three non-top-arc pass-through points). -/
theorem C1_forehead_replacement_witness :
    SvgPart.path (FinalCode.landmarks_to_svg_path [⟨0,0⟩, ⟨1,1⟩, ⟨2,2⟩] true true) "#B695C0"
        ((3:ℚ)/5) 0
      ∈ [SvgPart.path "M 0.00,0.00 L 1.00,1.00 L 2.00,2.00 Z" "#B695C0" ((3:ℚ)/5) 0]
    ∧ FinalCode.extrapolate_forehead_to_hairline grid339 [0, 1, 2] (3/2)
        = some [⟨0,0⟩, ⟨1,1⟩, ⟨2,2⟩] := by
  have h := C1_forehead_replacement_and_smooth_paths grid339 [("forehead", "#B695C0")] []
      false 0 [("forehead", [0, 1, 2])] 1
      [SvgPart.path "M 0.00,0.00 L 1.00,1.00 L 2.00,2.00 Z" "#B695C0" ((3:ℚ)/5) 0]
      (by decide) "forehead" [0, 1, 2] (by decide) "#B695C0" (by decide)
      [⟨0,0⟩, ⟨1,1⟩, ⟨2,2⟩] (by decide) (by decide)
  exact ⟨h.1, h.2 rfl⟩

/-- Counterexample for C1 as stated: the app-side renderer
(`app/utils/svg_generation.generate_svg_mask_overlay`), on a request whose
region map contains the forehead region, renders the forehead from its raw
resolved points as a straight-line closed path: the emitted d-string is not
the smooth (Catmull-Rom) path of those points, and it is not built from the
ForeheadExtrapolator's output — the extrapolator is never called (and would
raise on this landmark set). -/
theorem C1_counterexample :
    SvgGeneration.generate_svg_mask_overlay [⟨0,0⟩, ⟨10,0⟩, ⟨10,10⟩, ⟨0,10⟩] none
        [("forehead", [0, 1, 2, 3])] [("forehead", "#B695C0")] [] false 0
      = [SvgPart.path "M 0.00,0.00 L 10.00,0.00 L 10.00,10.00 L 0.00,10.00 Z" "#B695C0"
          ((13:ℚ)/20) 0]
    ∧ "M 0.00,0.00 L 10.00,0.00 L 10.00,10.00 L 0.00,10.00 Z"
        ≠ FinalCode.landmarks_to_svg_path [⟨0,0⟩, ⟨10,0⟩, ⟨10,10⟩, ⟨0,10⟩] true true
    ∧ FinalCode.extrapolate_forehead_to_hairline [⟨0,0⟩, ⟨10,0⟩, ⟨10,10⟩, ⟨0,10⟩]
        [0, 1, 2, 3] (3/2) = none := by
  refine ⟨by decide, by decide, by decide⟩

/-! ## C3: perceptual similarity lookup -/

lemma scanCandidates_cons_step (q : String) (c : Cache.TaskResultRec)
    (rest : List Cache.TaskResultRec) (b : Option Cache.TaskResultRec) (d : Nat)
    (h : String) (hc : c.perceptual_hash = some h) (hne : h ≠ "") :
    Cache.scanCandidates q (c :: rest) b d
      = if PHash.hamming_distance q h < d
        then Cache.scanCandidates q rest (some c) (PHash.hamming_distance q h)
        else Cache.scanCandidates q rest b d := by
  rw [Cache.scanCandidates, hc]
  exact if_neg hne

/-- Fold characterization of the best-match loop over candidates whose
stored hashes are all truthy: either no candidate beats the incoming best
distance and the accumulator passes through, or the result is the first
candidate achieving the minimum distance, which strictly beats the incoming
best distance, strictly beats every earlier candidate (the strict comparison
is what makes ties keep the earliest candidate), and is at most every later
candidate's distance. -/
lemma scanCandidates_charac (q : String) :
    ∀ (l : List Cache.TaskResultRec) (b : Option Cache.TaskResultRec) (d : Nat),
      (∀ e ∈ l, ∃ h, e.perceptual_hash = some h ∧ h ≠ "") →
      ((Cache.scanCandidates q l b d = (b, d) ∧ ∀ x ∈ l, d ≤ pdist q x)
      ∨ (∃ e pre suf, l = pre ++ e :: suf
          ∧ Cache.scanCandidates q l b d = (some e, pdist q e)
          ∧ pdist q e < d
          ∧ (∀ x ∈ pre, pdist q e < pdist q x)
          ∧ (∀ x ∈ suf, pdist q e ≤ pdist q x))) := by
  intro l
  induction l with
  | nil =>
    intro b d hl
    exact Or.inl ⟨rfl, by simp⟩
  | cons c rest ih =>
    intro b d hl
    obtain ⟨h, hc, hne⟩ := hl c (List.mem_cons_self c rest)
    have hdc : pdist q c = PHash.hamming_distance q h := by
      rw [pdist, hc]
      rfl
    have hstep := scanCandidates_cons_step q c rest b d h hc hne
    have hlrest : ∀ e ∈ rest, ∃ hh, e.perceptual_hash = some hh ∧ hh ≠ "" :=
      fun e he => hl e (List.mem_cons_of_mem c he)
    by_cases hcomp : PHash.hamming_distance q h < d
    · rw [hstep, if_pos hcomp]
      rcases ih (some c) (PHash.hamming_distance q h) hlrest with
        ⟨hres, hall⟩ | ⟨e, pre, suf, hdecomp, hres, hlt, hpre, hsuf⟩
      · right
        refine ⟨c, [], rest, by simp, ?_, by omega, by simp, ?_⟩
        · rw [hres, hdc]
        · intro x hx
          rw [hdc]
          exact hall x hx
      · right
        refine ⟨e, c :: pre, suf, by simp [hdecomp], hres, by omega, ?_, hsuf⟩
        intro x hx
        rcases List.mem_cons.mp hx with h1 | h1
        · subst h1
          omega
        · exact hpre x h1
    · rw [hstep, if_neg hcomp]
      rcases ih b d hlrest with
        ⟨hres, hall⟩ | ⟨e, pre, suf, hdecomp, hres, hlt, hpre, hsuf⟩
      · left
        refine ⟨hres, ?_⟩
        intro x hx
        rcases List.mem_cons.mp hx with h1 | h1
        · subst h1
          omega
        · exact hall x h1
      · right
        refine ⟨e, c :: pre, suf, by simp [hdecomp], hres, hlt, ?_, hsuf⟩
        intro x hx
        rcases List.mem_cons.mp hx with h1 | h1
        · subst h1
          omega
        · exact hpre x h1

/-- Skipping falsy stored hashes inside the loop is the same as scanning the
sublist of candidates whose stored hash is non-null and non-empty. -/
lemma scanCandidates_eq_filter (q : String) :
    ∀ (l : List Cache.TaskResultRec) (b : Option Cache.TaskResultRec) (d : Nat),
      Cache.scanCandidates q l b d
        = Cache.scanCandidates q (l.filter fun e => e.perceptual_hash.getD "" != "") b d := by
  intro l
  induction l with
  | nil =>
    intro b d
    rfl
  | cons c rest ih =>
    intro b d
    cases hc : c.perceptual_hash with
    | none =>
      have h1 : Cache.scanCandidates q (c :: rest) b d = Cache.scanCandidates q rest b d := by
        rw [Cache.scanCandidates, hc]
      have h2 : (c :: rest).filter (fun e => e.perceptual_hash.getD "" != "")
          = rest.filter (fun e => e.perceptual_hash.getD "" != "") := by
        rw [List.filter_cons]
        rw [if_neg (by simp [hc])]
      rw [h1, h2]
      exact ih b d
    | some h =>
      by_cases hne : h = ""
      · subst hne
        have h1 : Cache.scanCandidates q (c :: rest) b d
            = Cache.scanCandidates q rest b d := by
          rw [Cache.scanCandidates, hc]
          rfl
        have h2 : (c :: rest).filter (fun e => e.perceptual_hash.getD "" != "")
            = rest.filter (fun e => e.perceptual_hash.getD "" != "") := by
          rw [List.filter_cons]
          rw [if_neg (by simp [hc])]
        rw [h1, h2]
        exact ih b d
      · have h2 : (c :: rest).filter (fun e => e.perceptual_hash.getD "" != "")
            = c :: rest.filter (fun e => e.perceptual_hash.getD "" != "") := by
          rw [List.filter_cons]
          rw [if_pos (by simp [hc]; exact hne)]
        rw [scanCandidates_cons_step q c rest b d h hc hne, h2,
          scanCandidates_cons_step q c
            (rest.filter fun e => e.perceptual_hash.getD "" != "") b d h hc hne]
        by_cases hcomp : PHash.hamming_distance q h < d
        · rw [if_pos hcomp, if_pos hcomp]
          exact ih _ _
        · rw [if_neg hcomp, if_neg hcomp]
          exact ih b d

lemma consideredCandidates_truthy (now : Nat) (db : List Cache.TaskResultRec) :
    ∀ e ∈ consideredCandidates now db, ∃ h, e.perceptual_hash = some h ∧ h ≠ "" := by
  intro e he
  rw [consideredCandidates, List.mem_filter] at he
  obtain ⟨he1, he2⟩ := he
  rw [List.mem_filter] at he1
  have hsome : e.perceptual_hash.isSome := by
    have := he1.2
    rw [Cache.perceptualCandidate] at this
    simp only [Bool.and_eq_true] at this
    exact this.1.1
  obtain ⟨h, hh⟩ := Option.isSome_iff_exists.mp hsome
  refine ⟨h, hh, ?_⟩
  intro hemp
  subst hemp
  rw [hh] at he2
  simp at he2

/-- Among decompositions of the same list, the "first element of minimum
dist" — strictly smaller than everything before it, at most everything
after it — is unique. -/
lemma first_min_unique {α : Type} (dist : α → Nat) :
    ∀ (pre pre' : List α) (e e' : α) (suf suf' : List α),
      pre ++ e :: suf = pre' ++ e' :: suf' →
      (∀ x ∈ pre, dist e < dist x) → (∀ x ∈ suf, dist e ≤ dist x) →
      (∀ x ∈ pre', dist e' < dist x) → (∀ x ∈ suf', dist e' ≤ dist x) →
      e = e' := by
  intro pre
  induction pre with
  | nil =>
    intro pre' e e' suf suf' h hp hs hp' hs'
    cases pre' with
    | nil =>
      simp only [List.nil_append] at h
      injection h with h1 h2
    | cons p' rest' =>
      simp only [List.nil_append, List.cons_append] at h
      injection h with h1 h2
      exfalso
      have hmem : e' ∈ suf := by
        rw [h2]
        exact List.mem_append_right _ (List.mem_cons_self _ _)
      have hA : dist e ≤ dist e' := hs e' hmem
      have hB : dist e' < dist e := hp' e (by rw [h1]; exact List.mem_cons_self _ _)
      omega
  | cons p rest ih =>
    intro pre' e e' suf suf' h hp hs hp' hs'
    cases pre' with
    | nil =>
      simp only [List.nil_append, List.cons_append] at h
      injection h with h1 h2
      exfalso
      have hmem : e ∈ suf' := by
        rw [← h2]
        exact List.mem_append_right _ (List.mem_cons_self _ _)
      have hA : dist e' ≤ dist e := hs' e hmem
      have hB : dist e < dist e' := by
        have : e' ∈ p :: rest := by rw [← h1]; exact List.mem_cons_self _ _
        exact hp e' this
      omega
    | cons p' rest' =>
      simp only [List.cons_append] at h
      injection h with h1 h2
      exact ih rest' e e' suf suf' h2
        (fun x hx => hp x (List.mem_cons_of_mem p hx)) hs
        (fun x hx => hp' x (List.mem_cons_of_mem p' hx)) hs'

lemma get_perceptual_match_scan_some (q : String) (threshold now : Nat)
    (db : List Cache.TaskResultRec) (e : Cache.TaskResultRec) (dd : Nat)
    (h : Cache.scanCandidates q (db.filter (Cache.perceptualCandidate now)) none
        (threshold + 1) = (some e, dd)) :
    Cache.get_perceptual_match q threshold now db
      = if dd ≤ threshold then some (e, dd) else none := by
  rw [Cache.get_perceptual_match, h]

lemma get_perceptual_match_scan_none (q : String) (threshold now : Nat)
    (db : List Cache.TaskResultRec) (dd : Nat)
    (h : Cache.scanCandidates q (db.filter (Cache.perceptualCandidate now)) none
        (threshold + 1) = (none, dd)) :
    Cache.get_perceptual_match q threshold now db = none := by
  rw [Cache.get_perceptual_match, h]

/-- C3 (amended): the perceptual phase considers exactly the Success,
non-expired entries with a non-null AND non-empty stored perceptual hash
(the loop's truthiness test also skips an empty-string hash), and over those
it returns the first-encountered candidate of minimum Hamming distance
exactly when that minimum is within the threshold; when every such
candidate's distance exceeds the threshold it reports a miss. -/
theorem C3_similarity_lookup (q : String) (threshold now : Nat)
    (db : List Cache.TaskResultRec) :
    (∀ e dd, Cache.get_perceptual_match q threshold now db = some (e, dd) ↔
      ∃ pre suf, consideredCandidates now db = pre ++ e :: suf
        ∧ dd = pdist q e ∧ dd ≤ threshold
        ∧ (∀ x ∈ pre, dd < pdist q x) ∧ (∀ x ∈ suf, dd ≤ pdist q x))
    ∧ (Cache.get_perceptual_match q threshold now db = none ↔
        ∀ x ∈ consideredCandidates now db, threshold < pdist q x) := by
  have hscan : Cache.scanCandidates q (db.filter (Cache.perceptualCandidate now)) none
      (threshold + 1) = Cache.scanCandidates q (consideredCandidates now db) none
        (threshold + 1) :=
    scanCandidates_eq_filter q _ none (threshold + 1)
  have hch := scanCandidates_charac q (consideredCandidates now db) none (threshold + 1)
    (consideredCandidates_truthy now db)
  constructor
  · intro e dd
    constructor
    · intro hres
      rcases hch with ⟨hr, hall⟩ | ⟨e', pre, suf, hdecomp, hr, hlt, hpre, hsuf⟩
      · rw [get_perceptual_match_scan_none q threshold now db (threshold + 1)
          (hscan.trans hr)] at hres
        exact absurd hres (by simp)
      · rw [get_perceptual_match_scan_some q threshold now db e' (pdist q e')
          (hscan.trans hr), if_pos (by omega)] at hres
        have := Option.some_inj.mp hres
        have he1 : e' = e := congrArg Prod.fst this
        have he2 : pdist q e' = dd := congrArg Prod.snd this
        subst he1
        refine ⟨pre, suf, hdecomp, he2.symm, by omega, ?_, ?_⟩
        · intro x hx
          have := hpre x hx
          omega
        · intro x hx
          have := hsuf x hx
          omega
    · rintro ⟨pre, suf, hdecomp, hdd, hddth, hpre, hsuf⟩
      rcases hch with ⟨hr, hall⟩ | ⟨e', pre', suf', hdecomp', hr, hlt, hpre', hsuf'⟩
      · exfalso
        have hmem : e ∈ consideredCandidates now db := by
          rw [hdecomp]
          exact List.mem_append_right _ (List.mem_cons_self _ _)
        have := hall e hmem
        omega
      · have hcomb : pre' ++ e' :: suf' = pre ++ e :: suf := by
          rw [← hdecomp', ← hdecomp]
        have hpre2 : ∀ x ∈ pre, pdist q e < pdist q x := by
          intro x hx
          have := hpre x hx
          omega
        have hsuf2 : ∀ x ∈ suf, pdist q e ≤ pdist q x := by
          intro x hx
          have := hsuf x hx
          omega
        have huniq : e' = e :=
          first_min_unique (pdist q) pre' pre e' e suf' suf hcomb hpre' hsuf' hpre2 hsuf2
        subst huniq
        rw [get_perceptual_match_scan_some q threshold now db e' (pdist q e')
          (hscan.trans hr), if_pos (by omega), hdd]
  · constructor
    · intro hres
      rcases hch with ⟨hr, hall⟩ | ⟨e', pre, suf, hdecomp, hr, hlt, hpre, hsuf⟩
      · intro x hx
        have := hall x hx
        omega
      · rw [get_perceptual_match_scan_some q threshold now db e' (pdist q e')
          (hscan.trans hr), if_pos (by omega)] at hres
        exact absurd hres (by simp)
    · intro hall
      rcases hch with ⟨hr, -⟩ | ⟨e', pre, suf, hdecomp, hr, hlt, hpre, hsuf⟩
      · exact get_perceptual_match_scan_none q threshold now db (threshold + 1)
          (hscan.trans hr)
      · exfalso
        have hmem : e' ∈ consideredCandidates now db := by
          rw [hdecomp]
          exact List.mem_append_right _ (List.mem_cons_self _ _)
        have := hall e' hmem
        omega

/-- Witness for C3 (amended), exercising the tie-break: two Success
candidates both at Hamming distance 4 from the query — the scan returns the
first-encountered one. -/
theorem C3_similarity_witness :
    Cache.get_perceptual_match "00" 10 0 [rowA, rowB] = some (rowA, 4) := by
  apply ((C3_similarity_lookup "00" 10 0 [rowA, rowB]).1 rowA 4).mpr
  refine ⟨[], [rowB], by decide, by decide, by decide, ?_, ?_⟩
  · intro x hx
    exact absurd hx (by simp)
  · intro x hx
    rw [List.mem_singleton.mp hx]
    decide

/-- Counterexample for C3 as stated: a store whose only entry is a Success,
non-expired candidate with the NON-NULL (but empty-string) perceptual hash
`some ""` — its Hamming distance to the query "ab" is the length-mismatch
sentinel 8, within the threshold 10, so the claim requires it to be
returned as the minimum-distance candidate; the code's truthiness test
`if candidate.perceptual_hash:` skips it and the lookup reports a miss. -/
theorem C3_counterexample :
    Cache.perceptualCandidate 0
      { task_id := "t", input_hash := "k", perceptual_hash := some "", status := "SUCCESS",
        result_data := "r", processing_time_ms := 0, cache_hits := 0, last_accessed := 0,
        ttl_expires_at := none } = true
    ∧ PHash.hamming_distance "ab" "" = 8
    ∧ 8 ≤ 10
    ∧ Cache.get_perceptual_match "ab" 10 0
        [{ task_id := "t", input_hash := "k", perceptual_hash := some "", status := "SUCCESS",
           result_data := "r", processing_time_ms := 0, cache_hits := 0, last_accessed := 0,
           ttl_expires_at := none }] = none := by
  refine ⟨by decide, by decide, by decide, by decide⟩

end QovesSpec
